import Mathlib

/-!
Verification of the reliable interprocess message queue of
`boost/log/utility/ipc/reliable_message_queue.hpp`.

The public header declares the queue API (`send`, `try_send`, `receive`,
`try_receive`, `clear`, `stop`, `reset`, `capacity`, `block_size`,
`open_or_create`) and contains inline the receive wrappers and the
container receive handler; the out-of-line implementation (block
allocator, circular buffer, synchronization core, region manager) is not
part of the source tree, so those parts are modelled from the
specification, as marked on each definition.

Messages are byte strings, modelled as `List Nat`; the shared data area
is a flat byte array, also a `List Nat`, of `capacity * block_size`
bytes; all cursors are block indices as in the source data model.
-/

namespace ReliableMQ

/-- Modelled from the spec: the width of the in-band per-message length
header is left open by the observable contract ("an implementer should
pick a fixed-width header"); we fix it at 4 bytes, matching the
`uint32_t` message size used throughout the public API. -/
def header_bytes : Nat := 4

/-- Modelled from the spec (the allocator implementation is not in the
source tree): `blocks_needed = ceil((size + header_bytes) / block_size)`. -/
def blocks_needed (block_size size : Nat) : Nat :=
  (size + header_bytes + block_size - 1) / block_size

/-- Little-endian 4-byte encoding of the message length, written into the
first block of a message run.  Modelled from the spec: the header
"records the payload's exact byte length". -/
def encodeSize (n : Nat) : List Nat :=
  [n % 256, n / 256 % 256, n / 65536 % 256, n / 16777216 % 256]

/-- Decoding of the 4-byte little-endian length header. -/
def decodeSize (bs : List Nat) : Nat :=
  bs.getD 0 0 + 256 * bs.getD 1 0 + 65536 * bs.getD 2 0 + 16777216 * bs.getD 3 0

/-- Write `bytes` into the circular byte array `data` starting at byte
offset `start`, wrapping around the end of the array (the data area of
the circular buffer is logically contiguous modulo its size). -/
def writeBytes : List Nat → Nat → List Nat → List Nat
  | data, _, [] => data
  | data, start, b :: bs => writeBytes (data.set (start % data.length) b) (start + 1) bs

/-- Read `len` bytes from the circular byte array `data` starting at byte
offset `start`, wrapping around the end of the array. -/
def readBytes (data : List Nat) (start len : Nat) : List Nat :=
  (List.range len).map (fun i => data.getD ((start + i) % data.length) 0)

/-- The shared region header together with the block data area, as laid
out in shared memory (spec §3): block-granular cursors, the free block
counter, the running flag, and `capacity * block_size` bytes of data. -/
structure SharedRegion where
  capacity : Nat
  block_size : Nat
  head_index : Nat
  tail_index : Nat
  free_block_count : Nat
  running : Bool
  data : List Nat
deriving Repr, DecidableEq

/-- Modelled from the spec: `create` initializes the header with
`running = true`, `free_block_count = capacity`, `head = tail = 0` and a
data area of exactly `capacity * block_size` bytes. -/
def create (capacity block_size : Nat) : SharedRegion :=
  { capacity := capacity
    block_size := block_size
    head_index := 0
    tail_index := 0
    free_block_count := capacity
    running := true
    data := List.replicate (capacity * block_size) 0 }

/-- Modelled from the spec: reservation writes the length header into the
block at `tail_index`, copies the payload across the block run starting
there (wrapping around), advances
`tail_index = (tail_index + blocks_needed) mod capacity` and decrements
`free_block_count` by `blocks_needed`.  (The caller has already checked
`free_block_count ≥ blocks_needed`.) -/
def put_message (q : SharedRegion) (msg : List Nat) : SharedRegion :=
  let bn := blocks_needed q.block_size msg.length
  { q with
    data := writeBytes q.data (q.tail_index * q.block_size) (encodeSize msg.length ++ msg)
    tail_index := (q.tail_index + bn) % q.capacity
    free_block_count := q.free_block_count - bn }

/-- Modelled from the spec: dequeue reads the length header at
`head_index`, reconstructs the byte span (handling the wraparound split
transparently), advances `head_index` by the same `blocks_needed` and
increments `free_block_count`.  Returns the reconstructed message
together with the updated region. -/
def get_message (q : SharedRegion) : List Nat × SharedRegion :=
  let size := decodeSize (readBytes q.data (q.head_index * q.block_size) header_bytes)
  let msg := readBytes q.data (q.head_index * q.block_size + header_bytes) size
  let bn := blocks_needed q.block_size size
  (msg,
   { q with
     head_index := (q.head_index + bn) % q.capacity
     free_block_count := q.free_block_count + bn })

/-- Modelled from the spec: `clear()` resets `head_index = tail_index = 0`
and `free_block_count = capacity`, discarding all pending messages. -/
def clear (q : SharedRegion) : SharedRegion :=
  { q with head_index := 0, tail_index := 0, free_block_count := q.capacity }

/-- Modelled from the spec: `stop()` atomically sets the Stopped state. -/
def stop (q : SharedRegion) : SharedRegion :=
  { q with running := false }

/-- Modelled from the spec: `reset()` atomically sets the Running state. -/
def reset (q : SharedRegion) : SharedRegion :=
  { q with running := true }

/-- The wait predicate of a send: enough free blocks for the message. -/
def send_predicate (q : SharedRegion) (size : Nat) : Prop :=
  blocks_needed q.block_size size ≤ q.free_block_count

instance (q : SharedRegion) (size : Nat) : Decidable (send_predicate q size) :=
  inferInstanceAs (Decidable (_ ≤ _))

/-- The wait predicate of a receive: at least one pending message, i.e.
some blocks are occupied. -/
def receive_predicate (q : SharedRegion) : Prop :=
  q.free_block_count < q.capacity

instance (q : SharedRegion) : Decidable (receive_predicate q) :=
  inferInstanceAs (Decidable (_ < _))

/-- Result codes for operations on the queue (`operation_result` in the
header), extended with the outcome of a blocking call that would wait
(`would_block`): the sequential model cannot wait, so a blocking
`send`/`receive` whose predicate is false in Running state is reported as
`would_block` with the region unchanged. -/
inductive op_outcome
  | succeeded
  | aborted
  | would_block
deriving Repr, DecidableEq

/-- Errors thrown by the queue operations: `std::logic_error` for usage
errors (message exceeds theoretical capacity) and the QueueFull condition
of the `throw_on_overflow` policy. -/
inductive queue_error
  | logic_error
  | queue_full
deriving Repr, DecidableEq

/-- Interprocess queue overflow policies (`overflow_policy` in the
header). -/
inductive overflow_policy
  | block_on_overflow
  | throw_on_overflow
deriving Repr, DecidableEq

/-- Modelled from the spec: the blocking `send`.  Throws `logic_error`
when `blocks_needed > capacity`; performs the allocator operation and
returns Succeeded when the predicate holds; returns Aborted without
performing the operation when the state is Stopped and the predicate is
false; otherwise (Running, predicate false) either waits
(`block_on_overflow`) or throws the QueueFull condition
(`throw_on_overflow`). -/
def send (pol : overflow_policy) (q : SharedRegion) (msg : List Nat) :
    Except queue_error (op_outcome × SharedRegion) :=
  if blocks_needed q.block_size msg.length > q.capacity then
    .error .logic_error
  else if send_predicate q msg.length then
    .ok (.succeeded, put_message q msg)
  else if q.running then
    match pol with
    | .block_on_overflow => .ok (.would_block, q)
    | .throw_on_overflow => .error .queue_full
  else
    .ok (.aborted, q)

/-- Modelled from the spec: `try_send` checks the predicate once; if
false it returns `false` immediately regardless of Running/Stopped
state; if true it performs the operation and returns `true`.  Throws
`logic_error` when the message can never fit. -/
def try_send (q : SharedRegion) (msg : List Nat) :
    Except queue_error (Bool × SharedRegion) :=
  if blocks_needed q.block_size msg.length > q.capacity then
    .error .logic_error
  else if send_predicate q msg.length then
    .ok (true, put_message q msg)
  else
    .ok (false, q)

/-- Modelled from the spec: the blocking `receive` (dequeue side of
`do_receive`).  Performs the allocator dequeue and returns the message
when the predicate holds; returns Aborted when the state is Stopped and
the queue is empty; otherwise (Running, empty queue) waits. -/
def receive (q : SharedRegion) :
    op_outcome × Option (List Nat) × SharedRegion :=
  if receive_predicate q then
    let r := get_message q
    (.succeeded, some r.1, r.2)
  else if q.running then
    (.would_block, none, q)
  else
    (.aborted, none, q)

/-- Modelled from the spec: `try_receive` (dequeue side of
`do_try_receive`) checks the predicate once; if false it returns `false`
immediately regardless of Running/Stopped state; if true it dequeues and
returns `true`. -/
def try_receive (q : SharedRegion) :
    Bool × Option (List Nat) × SharedRegion :=
  if receive_predicate q then
    let r := get_message q
    (true, some r.1, r.2)
  else
    (false, none, q)

/-! ### Basic lemmas about the circular byte array -/

theorem writeBytes_length (bytes : List Nat) (data : List Nat) (start : Nat) :
    (writeBytes data start bytes).length = data.length := by
  induction bytes generalizing data start with
  | nil => rfl
  | cons b bs ih => simp [writeBytes, ih, List.length_set]

theorem add_mod_ne_self {L : Nat} (start k : Nat) (hk0 : 0 < k) (hkL : k < L) :
    (start + k) % L ≠ start % L := by
  intro h
  have hL : 0 < L := lt_trans hk0 hkL
  rw [Nat.add_mod, Nat.mod_eq_of_lt hkL] at h
  have hs : start % L < L := Nat.mod_lt _ hL
  rcases Nat.lt_or_ge (start % L + k) L with h2 | h2
  · rw [Nat.mod_eq_of_lt h2] at h
    omega
  · have h3 : start % L + k - L < L := by omega
    rw [Nat.mod_eq_sub_mod h2, Nat.mod_eq_of_lt h3] at h
    omega

theorem writeBytes_getD_of_ne (bytes : List Nat) (data : List Nat) (start p : Nat)
    (h : ∀ j, j < bytes.length → (start + j) % data.length ≠ p) :
    (writeBytes data start bytes).getD p 0 = data.getD p 0 := by
  induction bytes generalizing data start with
  | nil => rfl
  | cons b bs ih =>
    rw [writeBytes]
    have hlen : (data.set (start % data.length) b).length = data.length :=
      List.length_set data _ b
    have hp : start % data.length ≠ p := by
      have := h 0 (by simp)
      simpa using this
    rw [ih (data.set (start % data.length) b) (start + 1) (by
      intro j hj
      rw [hlen]
      have := h (j + 1) (by simpa using Nat.succ_lt_succ hj)
      simpa [Nat.add_assoc, Nat.add_comm 1 j] using this)]
    simp [List.getD, List.getElem?_set_ne hp]

theorem writeBytes_getD (bytes : List Nat) (data : List Nat) (start i : Nat)
    (hlen : bytes.length ≤ data.length) (hi : i < bytes.length) :
    (writeBytes data start bytes).getD ((start + i) % data.length) 0 = bytes.getD i 0 := by
  induction bytes generalizing data start i with
  | nil => exact absurd hi (by simp)
  | cons b bs ih =>
    have hL : 0 < data.length := lt_of_lt_of_le (by simp) hlen
    rw [writeBytes]
    have hset : (data.set (start % data.length) b).length = data.length :=
      List.length_set data _ b
    cases i with
    | zero =>
      have hrw := writeBytes_getD_of_ne bs (data.set (start % data.length) b) (start + 1)
        (start % data.length) (by
          intro j hj
          rw [hset]
          have h1 : 0 < 1 + j := by omega
          have h2 : 1 + j < data.length := by
            simp at hlen
            omega
          have := add_mod_ne_self start (1 + j) h1 h2
          simpa [Nat.add_assoc] using this)
      simp only [Nat.add_zero]
      rw [hrw]
      have hlt : start % data.length < data.length := Nat.mod_lt _ hL
      simp [List.getD, List.getElem?_set_self, hlt]
    | succ j =>
      have hgoal := ih (data.set (start % data.length) b) (start + 1) j
        (by rw [hset]; simp at hlen ⊢; omega) (by simpa using Nat.lt_of_succ_lt_succ hi)
      rw [hset] at hgoal
      have harith : start + 1 + j = start + (j + 1) := by omega
      rw [harith] at hgoal
      rw [hgoal]
      simp [List.getD]

theorem readBytes_length (data : List Nat) (start len : Nat) :
    (readBytes data start len).length = len := by
  simp [readBytes]

theorem readBytes_getD (data : List Nat) (start len i : Nat) (hi : i < len) :
    (readBytes data start len).getD i 0 = data.getD ((start + i) % data.length) 0 := by
  simp [readBytes, List.getD, List.getElem?_map, List.getElem?_range hi]

/-- Reading back a slice of what was written: reading `len` bytes at
offset `off` into a written run of `bytes` returns the corresponding
slice of `bytes`. -/
theorem readBytes_writeBytes_slice (data : List Nat) (start : Nat) (bytes : List Nat)
    (off len : Nat) (hlen : bytes.length ≤ data.length) (hoff : off + len ≤ bytes.length) :
    readBytes (writeBytes data start bytes) (start + off) len = (bytes.drop off).take len := by
  have hL : (writeBytes data start bytes).length = data.length := writeBytes_length _ _ _
  apply List.ext_getElem
  · simp [readBytes_length]
    omega
  · intro i h1 h2
    have hi : i < len := by
      have := h1
      rw [readBytes_length] at this
      exact this
    have hoi : off + i < bytes.length := by omega
    have key : (readBytes (writeBytes data start bytes) (start + off) len).getD i 0 =
        bytes.getD (off + i) 0 := by
      rw [readBytes_getD _ _ _ _ hi, hL]
      have harith : start + off + i = start + (off + i) := by omega
      rw [harith]
      exact writeBytes_getD bytes data start (off + i) hlen hoi
    rw [← List.getD_eq_getElem _ 0 h1, key, List.getD_eq_getElem _ 0 hoi]
    simp [List.getElem_take, List.getElem_drop]

/-! ### Arithmetic helpers -/

theorem encodeSize_length (n : Nat) : (encodeSize n).length = header_bytes := rfl

theorem decodeSize_encodeSize (n : Nat) (h : n < 4294967296) :
    decodeSize (encodeSize n) = n := by
  simp [encodeSize, decodeSize, List.getD]
  omega

theorem blocks_needed_pos (bs size : Nat) (hbs : 0 < bs) :
    0 < blocks_needed bs size := by
  unfold blocks_needed
  exact Nat.div_pos (by unfold header_bytes; omega) hbs

theorem size_le_blocks_needed_mul (bs size : Nat) (hbs : 0 < bs) :
    size + header_bytes ≤ blocks_needed bs size * bs := by
  have h1 := Nat.div_add_mod (size + header_bytes + bs - 1) bs
  have h2 : (size + header_bytes + bs - 1) % bs < bs := Nat.mod_lt _ hbs
  unfold blocks_needed
  rw [Nat.mul_comm]
  omega

theorem create_data_length (cap bs : Nat) : (create cap bs).data.length = cap * bs := by
  simp [create]

/-- The full message frame (length header followed by the payload) as it
is laid out in the data area. -/
def frame (msg : List Nat) : List Nat := encodeSize msg.length ++ msg

theorem frame_length (msg : List Nat) : (frame msg).length = header_bytes + msg.length := by
  simp [frame, encodeSize, header_bytes]
  omega

/-- C1: for every message whose size fits the queue, a `send` followed by
a `receive` on an otherwise empty (freshly created) queue succeeds and
delivers exactly the message that was sent, byte for byte. -/
theorem round_trip (cap bs : Nat) (msg : List Nat)
    (hcap : 0 < cap) (hbs : 0 < bs) (hsz : msg.length < 4294967296)
    (hfit : blocks_needed bs msg.length ≤ cap) :
    ∃ q1 : SharedRegion,
      send .block_on_overflow (create cap bs) msg = .ok (.succeeded, q1) ∧
      (receive q1).1 = .succeeded ∧
      (receive q1).2.1 = some msg := by
  have hdlen : (create cap bs).data.length = cap * bs := create_data_length cap bs
  have hframe : (frame msg).length ≤ (create cap bs).data.length := by
    rw [frame_length, hdlen]
    have h1 := size_le_blocks_needed_mul bs msg.length hbs
    have h2 : blocks_needed bs msg.length * bs ≤ cap * bs := Nat.mul_le_mul_right bs hfit
    omega
  refine ⟨put_message (create cap bs) msg, ?_, ?_, ?_⟩
  · unfold send
    have e1 : (create cap bs).block_size = bs := rfl
    have e2 : (create cap bs).capacity = cap := rfl
    have e3 : (create cap bs).free_block_count = cap := rfl
    simp only [send_predicate, e1, e2, e3]
    rw [if_neg (by omega), if_pos hfit]
  · unfold receive
    rw [if_pos (by
      show (put_message (create cap bs) msg).free_block_count <
        (put_message (create cap bs) msg).capacity
      have hpos := blocks_needed_pos bs msg.length hbs
      show cap - blocks_needed bs msg.length < cap
      omega)]
  · have hdr : readBytes (put_message (create cap bs) msg).data 0 header_bytes =
        encodeSize msg.length := by
      have hs := readBytes_writeBytes_slice (create cap bs).data 0 (frame msg) 0 header_bytes
        hframe (by rw [frame_length]; omega)
      simp only [Nat.add_zero, Nat.zero_add, List.drop_zero] at hs
      have ht : (frame msg).take header_bytes = encodeSize msg.length :=
        List.take_left' (encodeSize_length msg.length)
      rw [ht] at hs
      show readBytes (writeBytes (create cap bs).data (0 * bs) (frame msg)) 0 header_bytes =
        encodeSize msg.length
      simpa using hs
    have hpay : readBytes (put_message (create cap bs) msg).data header_bytes msg.length =
        msg := by
      have hs := readBytes_writeBytes_slice (create cap bs).data 0 (frame msg) header_bytes
        msg.length hframe (by rw [frame_length])
      simp only [Nat.zero_add] at hs
      have hd : (frame msg).drop header_bytes = msg :=
        List.drop_left' (encodeSize_length msg.length)
      rw [hd, List.take_length] at hs
      show readBytes (writeBytes (create cap bs).data (0 * bs) (frame msg)) header_bytes
        msg.length = msg
      simpa using hs
    unfold receive
    rw [if_pos (by
      show (put_message (create cap bs) msg).free_block_count <
        (put_message (create cap bs) msg).capacity
      have hpos := blocks_needed_pos bs msg.length hbs
      show cap - blocks_needed bs msg.length < cap
      omega)]
    show some ((get_message (put_message (create cap bs) msg)).1) = some msg
    unfold get_message
    have hhead : (put_message (create cap bs) msg).head_index *
        (put_message (create cap bs) msg).block_size = 0 := by
      simp [put_message, create]
    rw [hhead] at *
    simp only [hhead]
    rw [show (0 : Nat) + header_bytes = header_bytes by omega] at *
    simp only [hdr, decodeSize_encodeSize msg.length hsz, hpay]

/-! ### Block accounting for a list of pending messages -/

/-- Total number of allocation blocks occupied by a list of pending
messages. -/
def sumBlocks (bs : Nat) (msgs : List (List Nat)) : Nat :=
  (msgs.map (fun m => blocks_needed bs m.length)).sum

theorem sumBlocks_nil (bs : Nat) : sumBlocks bs [] = 0 := rfl

theorem sumBlocks_cons (bs : Nat) (m : List Nat) (msgs : List (List Nat)) :
    sumBlocks bs (m :: msgs) = blocks_needed bs m.length + sumBlocks bs msgs := by
  simp [sumBlocks]

theorem sumBlocks_append (bs : Nat) (l1 l2 : List (List Nat)) :
    sumBlocks bs (l1 ++ l2) = sumBlocks bs l1 + sumBlocks bs l2 := by
  simp [sumBlocks]

theorem sumBlocks_take_le (bs : Nat) (msgs : List (List Nat)) (k : Nat) :
    sumBlocks bs (msgs.take k) ≤ sumBlocks bs msgs := by
  conv_rhs => rw [← List.take_append_drop k msgs]
  rw [sumBlocks_append]
  omega

theorem sumBlocks_take_succ (bs : Nat) (msgs : List (List Nat)) (k : Nat)
    (hk : k < msgs.length) :
    sumBlocks bs (msgs.take (k + 1)) =
      sumBlocks bs (msgs.take k) + blocks_needed bs (msgs.get ⟨k, hk⟩).length := by
  have h2 : msgs.take (k + 1) = msgs.take k ++ [msgs.get ⟨k, hk⟩] := by
    rw [List.take_succ, List.getElem?_eq_getElem hk]
    simp
  rw [h2, sumBlocks_append]
  simp [sumBlocks]

/-! ### Reading around writes in the circular buffer -/

theorem readBytes_writeBytes_of_disjoint (data : List Nat) (wstart rstart len : Nat)
    (bytes : List Nat)
    (h : ∀ i, i < len → ∀ j, j < bytes.length →
      (rstart + i) % data.length ≠ (wstart + j) % data.length) :
    readBytes (writeBytes data wstart bytes) rstart len = readBytes data rstart len := by
  have hL : (writeBytes data wstart bytes).length = data.length := writeBytes_length _ _ _
  apply List.ext_getElem
  · simp [readBytes_length]
  · intro i h1 h2
    have hi : i < len := by
      have := h1
      rw [readBytes_length] at this
      exact this
    rw [← List.getD_eq_getElem _ 0 h1, ← List.getD_eq_getElem _ 0 h2,
      readBytes_getD _ _ _ _ hi, readBytes_getD _ _ _ _ hi, hL]
    exact writeBytes_getD_of_ne bytes data wstart _ (fun j hj => (h i hi j hj).symm)

/-- Splitting a circular read into two consecutive reads. -/
theorem readBytes_add (data : List Nat) (s a b : Nat) :
    readBytes data s (a + b) = readBytes data s a ++ readBytes data (s + a) b := by
  apply List.ext_getElem
  · simp [readBytes_length]
  · intro i h1 h2
    have hi : i < a + b := by
      have := h1
      rw [readBytes_length] at this
      exact this
    rw [← List.getD_eq_getElem _ 0 h1, ← List.getD_eq_getElem _ 0 h2,
      readBytes_getD _ _ _ _ hi]
    rcases Nat.lt_or_ge i a with hia | hia
    · rw [List.getD_append _ _ _ _ (by rw [readBytes_length]; exact hia),
        readBytes_getD _ _ _ _ hia]
    · rw [List.getD_append_right _ _ _ _ (by rw [readBytes_length]; exact hia),
        readBytes_length, readBytes_getD _ _ _ _ (by omega)]
      have harith : s + a + (i - a) = s + i := by omega
      rw [harith]

/-! ### Block-granular disjointness of circular byte positions -/

theorem mul_add_mod_decomp (cap bs a r : Nat) (hbs : 0 < bs) (hcap : 0 < cap)
    (hr : r < bs) :
    (a * bs + r) % (cap * bs) = (a % cap) * bs + r := by
  have hlt : (a % cap) * bs + r < cap * bs := by
    have h1 : a % cap + 1 ≤ cap := Nat.mod_lt a hcap
    calc (a % cap) * bs + r < (a % cap) * bs + bs := by omega
      _ = (a % cap + 1) * bs := by ring
      _ ≤ cap * bs := Nat.mul_le_mul_right bs h1
  have hsplit : a * bs + r = (cap * bs) * (a / cap) + ((a % cap) * bs + r) := by
    have hdm := Nat.div_add_mod a cap
    calc a * bs + r = (cap * (a / cap) + a % cap) * bs + r := by rw [hdm]
      _ = (cap * bs) * (a / cap) + ((a % cap) * bs + r) := by ring
  rw [hsplit, Nat.mul_add_mod, Nat.mod_eq_of_lt hlt]

theorem block_byte_inj (bs x1 x2 r1 r2 : Nat) (hbs : 0 < bs) (hr1 : r1 < bs)
    (hr2 : r2 < bs) (h : x1 * bs + r1 = x2 * bs + r2) : x1 = x2 ∧ r1 = r2 := by
  have h1 : (x1 * bs + r1) % bs = r1 := by
    rw [Nat.mul_comm, Nat.mul_add_mod, Nat.mod_eq_of_lt hr1]
  have h2 : (x2 * bs + r2) % bs = r2 := by
    rw [Nat.mul_comm, Nat.mul_add_mod, Nat.mod_eq_of_lt hr2]
  have hr : r1 = r2 := by rw [← h1, ← h2, h]
  refine ⟨Nat.eq_of_mul_eq_mul_right hbs (by omega), hr⟩

theorem add_mod_ne_of_ne (head x y cap : Nat) (hx : x < cap) (hy : y < cap)
    (hne : x ≠ y) : (head + x) % cap ≠ (head + y) % cap := by
  rcases Nat.lt_or_ge x y with hlt | hge
  · intro h
    have hk := @add_mod_ne_self cap (head + x) (y - x) (by omega) (by omega)
    rw [show head + x + (y - x) = head + y by omega] at hk
    exact hk h.symm
  · have hlt : y < x := by omega
    intro h
    have hk := @add_mod_ne_self cap (head + y) (x - y) (by omega) (by omega)
    rw [show head + y + (x - y) = head + x by omega] at hk
    exact hk h

/-- A byte position inside an occupied run starting `Sk` blocks past the
head is decomposed into its block index and in-block offset. -/
theorem circ_pos_decomp (cap bs head Sk i : Nat) (hbs : 0 < bs) (hcap : 0 < cap)
    (hi : i % bs < bs) :
    (((head + Sk) % cap) * bs + i) % (cap * bs)
      = ((head + (Sk + i / bs)) % cap) * bs + i % bs := by
  have hdm : i / bs * bs + i % bs = i := Nat.div_add_mod' i bs
  have e1 : ((head + Sk) % cap) * bs + i
      = ((head + Sk) % cap + i / bs) * bs + i % bs := by
    rw [Nat.add_mul]
    omega
  rw [e1, mul_add_mod_decomp cap bs _ _ hbs hcap hi, Nat.mod_add_mod]
  rw [show head + Sk + i / bs = head + (Sk + i / bs) by omega]

/-- The central disjointness fact of the circular allocator: the byte
positions of an occupied run fully inside the occupied prefix of the
buffer never collide with the byte positions of a fresh run allocated at
the tail, as long as the total block count stays within the capacity. -/
theorem occupied_fresh_disjoint (cap bs head Sk bnk S bn : Nat)
    (hbs : 0 < bs) (hcap : 0 < cap)
    (hseg : Sk + bnk ≤ S) (hS : S + bn ≤ cap)
    (i : Nat) (hi : i < bnk * bs) (j : Nat) (hj : j < bn * bs) :
    (((head + Sk) % cap) * bs + i) % (cap * bs) ≠
      (((head + S) % cap) * bs + j) % (cap * bs) := by
  have hi_lt : i / bs < bnk := (Nat.div_lt_iff_lt_mul hbs).mpr hi
  have hj_lt : j / bs < bn := (Nat.div_lt_iff_lt_mul hbs).mpr hj
  have hir : i % bs < bs := Nat.mod_lt _ hbs
  have hjr : j % bs < bs := Nat.mod_lt _ hbs
  rw [circ_pos_decomp cap bs head Sk i hbs hcap hir,
    circ_pos_decomp cap bs head S j hbs hcap hjr]
  intro h
  have hblocks := (block_byte_inj bs _ _ _ _ hbs hir hjr h).1
  have hxy : Sk + i / bs ≠ S + j / bs := by
    generalize i / bs = d at hi_lt ⊢
    generalize j / bs = e at hj_lt ⊢
    omega
  have hxlt : Sk + i / bs < cap := by
    generalize i / bs = d at hi_lt ⊢
    omega
  have hylt : S + j / bs < cap := by
    generalize j / bs = e at hj_lt ⊢
    omega
  exact add_mod_ne_of_ne head (Sk + i / bs) (S + j / bs) cap hxlt hylt hxy hblocks

/-! ### Projection lemmas for the allocator operations -/

theorem put_message_capacity (q : SharedRegion) (msg : List Nat) :
    (put_message q msg).capacity = q.capacity := rfl

theorem put_message_block_size (q : SharedRegion) (msg : List Nat) :
    (put_message q msg).block_size = q.block_size := rfl

theorem put_message_head_index (q : SharedRegion) (msg : List Nat) :
    (put_message q msg).head_index = q.head_index := rfl

theorem put_message_tail_index (q : SharedRegion) (msg : List Nat) :
    (put_message q msg).tail_index =
      (q.tail_index + blocks_needed q.block_size msg.length) % q.capacity := rfl

theorem put_message_free (q : SharedRegion) (msg : List Nat) :
    (put_message q msg).free_block_count =
      q.free_block_count - blocks_needed q.block_size msg.length := rfl

theorem put_message_data (q : SharedRegion) (msg : List Nat) :
    (put_message q msg).data =
      writeBytes q.data (q.tail_index * q.block_size) (frame msg) := rfl

/-! ### The coupling invariant of the allocator -/

/-- The coupling invariant between the shared region and the abstract
list of pending messages (oldest first): the cursors and the free block
counter agree with the block accounting of the pending messages, and each
pending message's frame is stored intact at its block run. -/
structure Inv (cap bs : Nat) (q : SharedRegion) (msgs : List (List Nat)) : Prop where
  hcap_eq : q.capacity = cap
  hbs_eq : q.block_size = bs
  hcap : 0 < cap
  hbs : 0 < bs
  hdata : q.data.length = cap * bs
  hhead : q.head_index < cap
  hsum : sumBlocks bs msgs ≤ cap
  hfree : q.free_block_count = cap - sumBlocks bs msgs
  htail : q.tail_index = (q.head_index + sumBlocks bs msgs) % cap
  hsizes : ∀ m ∈ msgs, m.length < 4294967296
  hstored : ∀ k, (hk : k < msgs.length) →
    readBytes q.data (((q.head_index + sumBlocks bs (msgs.take k)) % cap) * bs)
        (header_bytes + (msgs.get ⟨k, hk⟩).length) = frame (msgs.get ⟨k, hk⟩)

theorem Inv_create (cap bs : Nat) (hcap : 0 < cap) (hbs : 0 < bs) :
    Inv cap bs (create cap bs) [] := by
  refine ⟨rfl, rfl, hcap, hbs, create_data_length cap bs, hcap, by simp [sumBlocks_nil],
    by simp [create, sumBlocks_nil], by simp [create, sumBlocks_nil], by simp, ?_⟩
  intro k hk
  simp at hk

theorem Inv_clear (cap bs : Nat) (q : SharedRegion) (msgs : List (List Nat))
    (inv : Inv cap bs q msgs) : Inv cap bs (clear q) [] := by
  refine ⟨inv.hcap_eq, inv.hbs_eq, inv.hcap, inv.hbs, inv.hdata, inv.hcap,
    by simp [sumBlocks_nil], ?_, ?_, by simp, ?_⟩
  · show q.capacity = cap - sumBlocks bs []
    rw [inv.hcap_eq, sumBlocks_nil]
    omega
  · show (0 : Nat) = (0 + sumBlocks bs []) % cap
    rw [sumBlocks_nil]
    simp
  · intro k hk
    simp at hk

/-- Enqueuing a fitting message preserves the invariant, with the
message appended at the back of the abstract queue. -/
theorem Inv_put (cap bs : Nat) (q : SharedRegion) (msgs : List (List Nat))
    (msg : List Nat) (inv : Inv cap bs q msgs) (hsz : msg.length < 4294967296)
    (hroom : sumBlocks bs msgs + blocks_needed bs msg.length ≤ cap) :
    Inv cap bs (put_message q msg) (msgs ++ [msg]) := by
  have hbn_bytes : header_bytes + msg.length ≤ blocks_needed bs msg.length * bs := by
    have := size_le_blocks_needed_mul bs msg.length inv.hbs
    omega
  have hbn_le_cap : blocks_needed bs msg.length ≤ cap := by
    have := inv.hsum
    omega
  have hframe_le : (frame msg).length ≤ q.data.length := by
    rw [frame_length, inv.hdata]
    calc header_bytes + msg.length ≤ blocks_needed bs msg.length * bs := hbn_bytes
      _ ≤ cap * bs := Nat.mul_le_mul_right bs hbn_le_cap
  have hsum1 : sumBlocks bs (msgs ++ [msg]) =
      sumBlocks bs msgs + blocks_needed bs msg.length := by
    rw [sumBlocks_append, sumBlocks_cons, sumBlocks_nil]
    omega
  have hwstart : q.tail_index * q.block_size =
      ((q.head_index + sumBlocks bs msgs) % cap) * bs := by
    rw [inv.htail, inv.hbs_eq]
  refine ⟨inv.hcap_eq, inv.hbs_eq, inv.hcap, inv.hbs, ?_, inv.hhead, ?_, ?_, ?_, ?_, ?_⟩
  · show (writeBytes q.data _ _).length = cap * bs
    rw [writeBytes_length, inv.hdata]
  · omega
  · show q.free_block_count - blocks_needed q.block_size msg.length =
      cap - sumBlocks bs (msgs ++ [msg])
    rw [inv.hfree, inv.hbs_eq, hsum1]
    omega
  · show (q.tail_index + blocks_needed q.block_size msg.length) % q.capacity =
      (q.head_index + sumBlocks bs (msgs ++ [msg])) % cap
    rw [inv.htail, inv.hbs_eq, inv.hcap_eq, hsum1, Nat.mod_add_mod, Nat.add_assoc]
  · intro m hm
    rcases List.mem_append.mp hm with h | h
    · exact inv.hsizes m h
    · simp at h
      rw [h]
      exact hsz
  · intro k hk
    have hlen1 : (msgs ++ [msg]).length = msgs.length + 1 := by simp
    rcases Nat.lt_or_ge k msgs.length with hk1 | hk1
    · -- an already stored message is untouched by the fresh write
      have hget : (msgs ++ [msg]).get ⟨k, hk⟩ = msgs.get ⟨k, hk1⟩ := by
        simp [List.get_eq_getElem, List.getElem_append_left hk1]
      have htake : (msgs ++ [msg]).take k = msgs.take k :=
        List.take_append_of_le_length (by omega)
      rw [hget, htake, put_message_data, put_message_head_index, hwstart]
      have hk_bytes : header_bytes + (msgs.get ⟨k, hk1⟩).length ≤
          blocks_needed bs (msgs.get ⟨k, hk1⟩).length * bs := by
        have := size_le_blocks_needed_mul bs (msgs.get ⟨k, hk1⟩).length inv.hbs
        omega
      have hseg : sumBlocks bs (msgs.take k) +
          blocks_needed bs (msgs.get ⟨k, hk1⟩).length ≤ sumBlocks bs msgs := by
        rw [← sumBlocks_take_succ bs msgs k hk1]
        exact sumBlocks_take_le bs msgs (k + 1)
      have hdisj := readBytes_writeBytes_of_disjoint q.data
        (((q.head_index + sumBlocks bs msgs) % cap) * bs)
        (((q.head_index + sumBlocks bs (msgs.take k)) % cap) * bs)
        (header_bytes + (msgs.get ⟨k, hk1⟩).length) (frame msg) (by
          intro i hi j hj
          rw [inv.hdata]
          rw [frame_length] at hj
          exact occupied_fresh_disjoint cap bs q.head_index
            (sumBlocks bs (msgs.take k)) (blocks_needed bs (msgs.get ⟨k, hk1⟩).length)
            (sumBlocks bs msgs) (blocks_needed bs msg.length) inv.hbs inv.hcap hseg
            hroom i (by omega) j (by omega))
      rw [hdisj]
      exact inv.hstored k hk1
    · -- the freshly written message reads back as its own frame
      have hkeq : k = msgs.length := by omega
      subst hkeq
      have hget : (msgs ++ [msg]).get ⟨msgs.length, hk⟩ = msg := by
        simp [List.get_eq_getElem, List.getElem_append_right (Nat.le_refl _)]
      have htake : (msgs ++ [msg]).take msgs.length = msgs := List.take_left msgs [msg]
      rw [hget, htake, put_message_data, put_message_head_index, hwstart]
      have hs := readBytes_writeBytes_slice q.data
        (((q.head_index + sumBlocks bs msgs) % cap) * bs) (frame msg) 0
        (frame msg).length hframe_le (by omega)
      simp only [Nat.add_zero, List.drop_zero, List.take_length] at hs
      rw [frame_length] at hs
      exact hs

/-- The size decoded from the length header at the head of the queue. -/
def head_size (q : SharedRegion) : Nat :=
  decodeSize (readBytes q.data (q.head_index * q.block_size) header_bytes)

theorem get_message_msg (q : SharedRegion) :
    (get_message q).1 =
      readBytes q.data (q.head_index * q.block_size + header_bytes) (head_size q) := rfl

theorem get_message_head_index (q : SharedRegion) :
    (get_message q).2.head_index =
      (q.head_index + blocks_needed q.block_size (head_size q)) % q.capacity := rfl

theorem get_message_free (q : SharedRegion) :
    (get_message q).2.free_block_count =
      q.free_block_count + blocks_needed q.block_size (head_size q) := rfl

theorem get_message_tail_index (q : SharedRegion) :
    (get_message q).2.tail_index = q.tail_index := rfl

theorem get_message_capacity (q : SharedRegion) :
    (get_message q).2.capacity = q.capacity := rfl

theorem get_message_block_size (q : SharedRegion) :
    (get_message q).2.block_size = q.block_size := rfl

theorem get_message_data (q : SharedRegion) :
    (get_message q).2.data = q.data := rfl

/-- Dequeuing from a non-empty queue returns exactly the oldest pending
message and preserves the invariant with that message removed. -/
theorem get_message_spec (cap bs : Nat) (q : SharedRegion) (m : List Nat)
    (rest : List (List Nat)) (inv : Inv cap bs q (m :: rest)) :
    head_size q = m.length ∧ (get_message q).1 = m ∧
      Inv cap bs (get_message q).2 rest := by
  have hm_sz : m.length < 4294967296 := inv.hsizes m (by simp)
  have hst0 := inv.hstored 0 (by simp)
  simp only [List.take_zero, sumBlocks_nil, Nat.add_zero] at hst0
  rw [Nat.mod_eq_of_lt inv.hhead] at hst0
  have hst1 : readBytes q.data (q.head_index * bs) (header_bytes + m.length) =
      frame m := hst0
  unfold frame at hst1
  rw [readBytes_add] at hst1
  obtain ⟨hhdr, hpay⟩ := List.append_inj hst1
    (by rw [readBytes_length, encodeSize_length])
  have hsize_eq : head_size q = m.length := by
    unfold head_size
    rw [inv.hbs_eq, hhdr, decodeSize_encodeSize _ hm_sz]
  have hmsg_eq : (get_message q).1 = m := by
    rw [get_message_msg, hsize_eq, inv.hbs_eq, hpay]
  have hsum_cons : sumBlocks bs (m :: rest) =
      blocks_needed bs m.length + sumBlocks bs rest := sumBlocks_cons bs m rest
  have hsum_le := inv.hsum
  rw [hsum_cons] at hsum_le
  refine ⟨hsize_eq, hmsg_eq, ?_, ?_, inv.hcap, inv.hbs, ?_, ?_, ?_, ?_, ?_, ?_, ?_⟩
  · rw [get_message_capacity]
    exact inv.hcap_eq
  · rw [get_message_block_size]
    exact inv.hbs_eq
  · rw [get_message_data]
    exact inv.hdata
  · rw [get_message_head_index, hsize_eq, inv.hbs_eq, inv.hcap_eq]
    exact Nat.mod_lt _ inv.hcap
  · omega
  · rw [get_message_free, hsize_eq, inv.hbs_eq, inv.hfree, hsum_cons]
    omega
  · rw [get_message_tail_index, get_message_head_index, hsize_eq, inv.hbs_eq,
      inv.hcap_eq, inv.htail, hsum_cons, Nat.mod_add_mod, Nat.add_assoc]
  · intro m' hm'
    exact inv.hsizes m' (by simp [hm'])
  · intro k hk
    have hk1 : k + 1 < (m :: rest).length := by simpa using Nat.succ_lt_succ hk
    have hprev := inv.hstored (k + 1) hk1
    have htake : (m :: rest).take (k + 1) = m :: rest.take k := rfl
    rw [htake, sumBlocks_cons] at hprev
    have hget : (m :: rest).get ⟨k + 1, hk1⟩ = rest.get ⟨k, hk⟩ := rfl
    rw [hget] at hprev
    rw [get_message_data, get_message_head_index, hsize_eq, inv.hbs_eq, inv.hcap_eq,
      Nat.mod_add_mod]
    rw [show q.head_index + blocks_needed bs m.length + sumBlocks bs (rest.take k)
        = q.head_index + (blocks_needed bs m.length + sumBlocks bs (rest.take k))
      from by omega]
    exact hprev

/-! ### Predicate characterizations under the invariant -/

theorem send_predicate_iff_room (cap bs : Nat) (q : SharedRegion)
    (msgs : List (List Nat)) (msg : List Nat) (inv : Inv cap bs q msgs) :
    send_predicate q msg.length ↔
      sumBlocks bs msgs + blocks_needed bs msg.length ≤ cap := by
  unfold send_predicate
  rw [inv.hbs_eq, inv.hfree]
  have := inv.hsum
  omega

theorem receive_predicate_iff_nonempty (cap bs : Nat) (q : SharedRegion)
    (msgs : List (List Nat)) (inv : Inv cap bs q msgs) :
    receive_predicate q ↔ msgs ≠ [] := by
  unfold receive_predicate
  rw [inv.hfree, inv.hcap_eq]
  cases msgs with
  | nil => simp [sumBlocks_nil]
  | cons m rest =>
    have h1 := blocks_needed_pos bs m.length inv.hbs
    have h2 := inv.hsum
    have h3 : sumBlocks bs (m :: rest) =
        blocks_needed bs m.length + sumBlocks bs rest := sumBlocks_cons bs m rest
    have hcap := inv.hcap
    constructor
    · intro _
      exact List.cons_ne_nil m rest
    · intro _
      omega

/-! ### Traces of queue operations and the abstract FIFO model -/

/-- One operation of a usage trace: the content-affecting operations of
the public API. -/
inductive qop
  | q_send (pol : overflow_policy) (msg : List Nat)
  | q_try_send (msg : List Nat)
  | q_receive
  | q_try_receive
  | q_clear
deriving Repr, DecidableEq

/-- The state of the region after a blocking `send` call returns or
throws (on a throw the region is untouched). -/
def after_send (pol : overflow_policy) (q : SharedRegion) (msg : List Nat) :
    SharedRegion :=
  match send pol q msg with
  | .error _ => q
  | .ok r => r.2

/-- The state of the region after a `try_send` call returns or throws. -/
def after_try_send (q : SharedRegion) (msg : List Nat) : SharedRegion :=
  match try_send q msg with
  | .error _ => q
  | .ok r => r.2

/-- Execute a trace of operations on the shared region; the second
component collects the messages delivered by the receive operations, in
delivery order. -/
def run : SharedRegion → List qop → SharedRegion × List (List Nat)
  | q, [] => (q, [])
  | q, .q_send pol msg :: ops => run (after_send pol q msg) ops
  | q, .q_try_send msg :: ops => run (after_try_send q msg) ops
  | q, .q_receive :: ops =>
    match (receive q).2.1 with
    | some m =>
      ((run (receive q).2.2 ops).1, m :: (run (receive q).2.2 ops).2)
    | none => run (receive q).2.2 ops
  | q, .q_try_receive :: ops =>
    match (try_receive q).2.1 with
    | some m =>
      ((run (try_receive q).2.2 ops).1, m :: (run (try_receive q).2.2 ops).2)
    | none => run (try_receive q).2.2 ops
  | q, .q_clear :: ops => run (clear q) ops

/-- The abstract FIFO model of the same trace: pending messages are a
list (oldest first); a send appends at the back when the message fits in
the remaining blocks; a receive removes and delivers the front. -/
def absRun (cap bs : Nat) :
    List (List Nat) → List qop → List (List Nat) × List (List Nat)
  | pending, [] => (pending, [])
  | pending, .q_send _ msg :: ops =>
    if blocks_needed bs msg.length > cap then absRun cap bs pending ops
    else if sumBlocks bs pending + blocks_needed bs msg.length ≤ cap then
      absRun cap bs (pending ++ [msg]) ops
    else absRun cap bs pending ops
  | pending, .q_try_send msg :: ops =>
    if blocks_needed bs msg.length > cap then absRun cap bs pending ops
    else if sumBlocks bs pending + blocks_needed bs msg.length ≤ cap then
      absRun cap bs (pending ++ [msg]) ops
    else absRun cap bs pending ops
  | pending, .q_receive :: ops =>
    match pending with
    | [] => absRun cap bs [] ops
    | m :: rest =>
      ((absRun cap bs rest ops).1, m :: (absRun cap bs rest ops).2)
  | pending, .q_try_receive :: ops =>
    match pending with
    | [] => absRun cap bs [] ops
    | m :: rest =>
      ((absRun cap bs rest ops).1, m :: (absRun cap bs rest ops).2)
  | pending, .q_clear :: ops => absRun cap bs [] ops

/-- Message sizes a `uint32_t` can carry (the type of `message_size` in
the API). -/
def qop_ok : qop → Bool
  | .q_send _ msg => decide (msg.length < 4294967296)
  | .q_try_send msg => decide (msg.length < 4294967296)
  | _ => true

theorem run_nil (q : SharedRegion) : run q [] = (q, []) := rfl

theorem run_send_cons (q : SharedRegion) (pol : overflow_policy) (msg : List Nat)
    (ops : List qop) :
    run q (.q_send pol msg :: ops) = run (after_send pol q msg) ops := rfl

theorem run_try_send_cons (q : SharedRegion) (msg : List Nat) (ops : List qop) :
    run q (.q_try_send msg :: ops) = run (after_try_send q msg) ops := rfl

theorem run_clear_cons (q : SharedRegion) (ops : List qop) :
    run q (.q_clear :: ops) = run (clear q) ops := rfl

theorem run_receive_cons_some (q : SharedRegion) (m : List Nat) (ops : List qop)
    (h : (receive q).2.1 = some m) :
    run q (.q_receive :: ops) =
      ((run (receive q).2.2 ops).1, m :: (run (receive q).2.2 ops).2) := by
  simp only [run, h]

theorem run_receive_cons_none (q : SharedRegion) (ops : List qop)
    (h : (receive q).2.1 = none) :
    run q (.q_receive :: ops) = run (receive q).2.2 ops := by
  simp only [run, h]

theorem run_try_receive_cons_some (q : SharedRegion) (m : List Nat) (ops : List qop)
    (h : (try_receive q).2.1 = some m) :
    run q (.q_try_receive :: ops) =
      ((run (try_receive q).2.2 ops).1, m :: (run (try_receive q).2.2 ops).2) := by
  simp only [run, h]

theorem run_try_receive_cons_none (q : SharedRegion) (ops : List qop)
    (h : (try_receive q).2.1 = none) :
    run q (.q_try_receive :: ops) = run (try_receive q).2.2 ops := by
  simp only [run, h]

/-- The simulation theorem: any trace executed on the concrete shared
region delivers exactly the messages the abstract FIFO model delivers,
in the same order, and the coupling invariant is maintained. -/
theorem run_simulation (cap bs : Nat) (ops : List qop) :
    ∀ (q : SharedRegion) (msgs : List (List Nat)), Inv cap bs q msgs →
      (∀ op ∈ ops, qop_ok op = true) →
      (run q ops).2 = (absRun cap bs msgs ops).2 ∧
        Inv cap bs (run q ops).1 (absRun cap bs msgs ops).1 := by
  induction ops with
  | nil =>
    intro q msgs inv _
    exact ⟨rfl, inv⟩
  | cons op ops ih =>
    intro q msgs inv hok
    have hok_tl : ∀ op' ∈ ops, qop_ok op' = true := fun op' h => hok op' (by simp [h])
    cases op with
    | q_send pol msg =>
      have hsz : msg.length < 4294967296 := by
        have := hok (.q_send pol msg) (by simp)
        simpa [qop_ok] using this
      rw [run_send_cons]
      by_cases c1 : blocks_needed bs msg.length > cap
      · have hafter : after_send pol q msg = q := by
          unfold after_send send
          rw [if_pos (by rw [inv.hbs_eq, inv.hcap_eq]; exact c1)]
        rw [hafter]
        show _ ∧ Inv cap bs _ (absRun cap bs msgs (.q_send pol msg :: ops)).1
        simp only [absRun, if_pos c1]
        exact ih q msgs inv hok_tl
      · by_cases c2 : sumBlocks bs msgs + blocks_needed bs msg.length ≤ cap
        · have hpred : send_predicate q msg.length :=
            (send_predicate_iff_room cap bs q msgs msg inv).mpr c2
          have hafter : after_send pol q msg = put_message q msg := by
            unfold after_send send
            rw [if_neg (by rw [inv.hbs_eq, inv.hcap_eq]; exact c1), if_pos hpred]
          rw [hafter]
          simp only [absRun, if_neg c1, if_pos c2]
          exact ih (put_message q msg) (msgs ++ [msg]) (Inv_put cap bs q msgs msg inv hsz c2)
            hok_tl
        · have hpred : ¬ send_predicate q msg.length := by
            rw [send_predicate_iff_room cap bs q msgs msg inv]
            exact c2
          have hafter : after_send pol q msg = q := by
            unfold after_send send
            rw [if_neg (by rw [inv.hbs_eq, inv.hcap_eq]; exact c1), if_neg hpred]
            cases pol <;> cases hq : q.running <;> simp
          rw [hafter]
          simp only [absRun, if_neg c1, if_neg c2]
          exact ih q msgs inv hok_tl
    | q_try_send msg =>
      have hsz : msg.length < 4294967296 := by
        have := hok (.q_try_send msg) (by simp)
        simpa [qop_ok] using this
      rw [run_try_send_cons]
      by_cases c1 : blocks_needed bs msg.length > cap
      · have hafter : after_try_send q msg = q := by
          unfold after_try_send try_send
          rw [if_pos (by rw [inv.hbs_eq, inv.hcap_eq]; exact c1)]
        rw [hafter]
        simp only [absRun, if_pos c1]
        exact ih q msgs inv hok_tl
      · by_cases c2 : sumBlocks bs msgs + blocks_needed bs msg.length ≤ cap
        · have hpred : send_predicate q msg.length :=
            (send_predicate_iff_room cap bs q msgs msg inv).mpr c2
          have hafter : after_try_send q msg = put_message q msg := by
            unfold after_try_send try_send
            rw [if_neg (by rw [inv.hbs_eq, inv.hcap_eq]; exact c1), if_pos hpred]
          rw [hafter]
          simp only [absRun, if_neg c1, if_pos c2]
          exact ih (put_message q msg) (msgs ++ [msg]) (Inv_put cap bs q msgs msg inv hsz c2)
            hok_tl
        · have hpred : ¬ send_predicate q msg.length := by
            rw [send_predicate_iff_room cap bs q msgs msg inv]
            exact c2
          have hafter : after_try_send q msg = q := by
            unfold after_try_send try_send
            rw [if_neg (by rw [inv.hbs_eq, inv.hcap_eq]; exact c1), if_neg hpred]

          rw [hafter]
          simp only [absRun, if_neg c1, if_neg c2]
          exact ih q msgs inv hok_tl
    | q_receive =>
      cases msgs with
      | nil =>
        have hrp : ¬ receive_predicate q := by
          rw [receive_predicate_iff_nonempty cap bs q [] inv]
          simp
        have h21 : (receive q).2.1 = none := by
          unfold receive
          rw [if_neg hrp]
          cases hq : q.running <;> simp
        have h22 : (receive q).2.2 = q := by
          unfold receive
          rw [if_neg hrp]
          cases hq : q.running <;> simp
        rw [run_receive_cons_none q ops h21, h22]
        simp only [absRun]
        exact ih q [] inv hok_tl
      | cons m rest =>
        have hrp : receive_predicate q := by
          rw [receive_predicate_iff_nonempty cap bs q (m :: rest) inv]
          exact List.cons_ne_nil m rest
        obtain ⟨hhs, hm, hinv2⟩ := get_message_spec cap bs q m rest inv
        have h21 : (receive q).2.1 = some m := by
          unfold receive
          rw [if_pos hrp]
          simpa using hm
        have h22 : (receive q).2.2 = (get_message q).2 := by
          unfold receive
          rw [if_pos hrp]
        rw [run_receive_cons_some q m ops h21, h22]
        simp only [absRun]
        obtain ⟨ho, hi⟩ := ih (get_message q).2 rest hinv2 hok_tl
        exact ⟨by rw [ho], hi⟩
    | q_try_receive =>
      cases msgs with
      | nil =>
        have hrp : ¬ receive_predicate q := by
          rw [receive_predicate_iff_nonempty cap bs q [] inv]
          simp
        have h21 : (try_receive q).2.1 = none := by
          unfold try_receive
          rw [if_neg hrp]
        have h22 : (try_receive q).2.2 = q := by
          unfold try_receive
          rw [if_neg hrp]
        rw [run_try_receive_cons_none q ops h21, h22]
        simp only [absRun]
        exact ih q [] inv hok_tl
      | cons m rest =>
        have hrp : receive_predicate q := by
          rw [receive_predicate_iff_nonempty cap bs q (m :: rest) inv]
          exact List.cons_ne_nil m rest
        obtain ⟨hhs, hm, hinv2⟩ := get_message_spec cap bs q m rest inv
        have h21 : (try_receive q).2.1 = some m := by
          unfold try_receive
          rw [if_pos hrp]
          simpa using hm
        have h22 : (try_receive q).2.2 = (get_message q).2 := by
          unfold try_receive
          rw [if_pos hrp]
        rw [run_try_receive_cons_some q m ops h21, h22]
        simp only [absRun]
        obtain ⟨ho, hi⟩ := ih (get_message q).2 rest hinv2 hok_tl
        exact ⟨by rw [ho], hi⟩
    | q_clear =>
      rw [run_clear_cons]
      simp only [absRun]
      exact ih (clear q) [] (Inv_clear cap bs q msgs inv) hok_tl

/-! ### Claim theorems -/

/-- C1 witness: a concrete round trip at capacity 4, block size 8,
message `[1, 2, 3]`. -/
theorem round_trip_witness :
    0 < 4 ∧ 0 < 8 ∧ ([1, 2, 3] : List Nat).length < 4294967296 ∧
      blocks_needed 8 ([1, 2, 3] : List Nat).length ≤ 4 ∧
      ∃ q1 : SharedRegion,
        send .block_on_overflow (create 4 8) [1, 2, 3] = .ok (.succeeded, q1) ∧
        (receive q1).1 = .succeeded ∧ (receive q1).2.1 = some [1, 2, 3] :=
  ⟨by decide, by decide, by decide, by decide,
    round_trip 4 8 [1, 2, 3] (by decide) (by decide) (by decide) (by decide)⟩

/-- C2: for a single producer and single consumer, every trace of queue
operations delivers the messages in exactly the order they were sent,
byte for byte (the concrete run delivers exactly what the abstract FIFO
model delivers), including zero-length messages. -/
theorem fifo_order (cap bs : Nat) (ops : List qop) (hcap : 0 < cap) (hbs : 0 < bs)
    (hok : ∀ op ∈ ops, qop_ok op = true) :
    (run (create cap bs) ops).2 = (absRun cap bs [] ops).2 :=
  (run_simulation cap bs ops (create cap bs) [] (Inv_create cap bs hcap hbs) hok).1

/-- C2 witness: a concrete interleaved trace with a zero-length message,
at capacity 2, block size 8. -/
theorem fifo_order_witness :
    0 < 2 ∧ 0 < 8 ∧
      (∀ op ∈ [qop.q_try_send [7], qop.q_try_send [], qop.q_try_receive,
        qop.q_try_send [8, 9], qop.q_try_receive, qop.q_try_receive],
        qop_ok op = true) ∧
      (run (create 2 8) [qop.q_try_send [7], qop.q_try_send [], qop.q_try_receive,
          qop.q_try_send [8, 9], qop.q_try_receive, qop.q_try_receive]).2 =
        (absRun 2 8 [] [qop.q_try_send [7], qop.q_try_send [], qop.q_try_receive,
          qop.q_try_send [8, 9], qop.q_try_receive, qop.q_try_receive]).2 :=
  ⟨by decide, by decide, by decide,
    fifo_order 2 8 _ (by decide) (by decide) (by decide)⟩

/-- C3: starting from a freshly created queue, after any sequence of
send / try_send / receive / try_receive / clear operations the shared
header satisfies `free_block_count ≤ capacity` (the lower bound `0 ≤`
holds because the counter is a natural number); as every prefix of a
trace is itself a trace, this holds at every quiescent point. -/
theorem free_block_count_invariant (cap bs : Nat) (ops : List qop)
    (hcap : 0 < cap) (hbs : 0 < bs) (hok : ∀ op ∈ ops, qop_ok op = true) :
    (run (create cap bs) ops).1.free_block_count ≤
      (run (create cap bs) ops).1.capacity := by
  have h := (run_simulation cap bs ops (create cap bs) []
    (Inv_create cap bs hcap hbs) hok).2
  rw [h.hfree, h.hcap_eq]
  omega

/-- C3 witness: the invariant after a concrete trace that fills, drains
and clears the queue. -/
theorem free_block_count_invariant_witness :
    0 < 2 ∧ 0 < 8 ∧
      (∀ op ∈ [qop.q_try_send [7], qop.q_send .block_on_overflow [1, 2, 3, 4, 5],
        qop.q_try_receive, qop.q_clear, qop.q_try_send [9]], qop_ok op = true) ∧
      (run (create 2 8) [qop.q_try_send [7], qop.q_send .block_on_overflow [1, 2, 3, 4, 5],
          qop.q_try_receive, qop.q_clear, qop.q_try_send [9]]).1.free_block_count ≤
        (run (create 2 8) [qop.q_try_send [7], qop.q_send .block_on_overflow [1, 2, 3, 4, 5],
          qop.q_try_receive, qop.q_clear, qop.q_try_send [9]]).1.capacity :=
  ⟨by decide, by decide, by decide,
    free_block_count_invariant 2 8 _ (by decide) (by decide) (by decide)⟩

/-- C4: in the Stopped state a blocking `send` or `receive` whose wait
predicate is false returns Aborted immediately with the region unchanged
(nothing enqueued or dequeued, head/tail/free untouched); when the
predicate is true the allocator operation is performed and Succeeded is
returned. -/
theorem stopped_abort_spec (pol : overflow_policy) (q : SharedRegion)
    (msg : List Nat) :
    (q.running = false → blocks_needed q.block_size msg.length ≤ q.capacity →
      ¬ send_predicate q msg.length → send pol q msg = .ok (.aborted, q)) ∧
    (q.running = false → ¬ receive_predicate q →
      receive q = (.aborted, none, q)) ∧
    (blocks_needed q.block_size msg.length ≤ q.capacity →
      send_predicate q msg.length →
      send pol q msg = .ok (.succeeded, put_message q msg)) ∧
    (receive_predicate q →
      receive q = (.succeeded, some (get_message q).1, (get_message q).2)) := by
  refine ⟨?_, ?_, ?_, ?_⟩
  · intro hstop hfit hpred
    unfold send
    rw [if_neg (by omega), if_neg hpred, if_neg (by rw [hstop]; simp)]
  · intro hstop hpred
    unfold receive
    rw [if_neg hpred, if_neg (by rw [hstop]; simp)]
  · intro hfit hpred
    unfold send
    rw [if_neg (by omega), if_pos hpred]
  · intro hpred
    unfold receive
    rw [if_pos hpred]

/-- C4 witness: a stopped full queue aborts a send, a stopped empty
queue aborts a receive, and a running queue with room performs the
send. -/
theorem stopped_abort_spec_witness :
    ((stop (put_message (create 2 4) [])).running = false ∧
      blocks_needed (stop (put_message (create 2 4) [])).block_size
        ([7, 7] : List Nat).length ≤ (stop (put_message (create 2 4) [])).capacity ∧
      ¬ send_predicate (stop (put_message (create 2 4) [])) ([7, 7] : List Nat).length ∧
      send .block_on_overflow (stop (put_message (create 2 4) [])) [7, 7] =
        .ok (.aborted, stop (put_message (create 2 4) []))) ∧
    ((stop (create 2 4)).running = false ∧ ¬ receive_predicate (stop (create 2 4)) ∧
      receive (stop (create 2 4)) = (.aborted, none, stop (create 2 4))) ∧
    (send_predicate (create 2 4) ([7] : List Nat).length ∧
      send .block_on_overflow (create 2 4) [7] =
        .ok (.succeeded, put_message (create 2 4) [7])) :=
  ⟨⟨by decide, by decide, by decide,
      (stopped_abort_spec .block_on_overflow (stop (put_message (create 2 4) [])) [7, 7]).1
        (by decide) (by decide) (by decide)⟩,
    ⟨by decide, by decide,
      (stopped_abort_spec .block_on_overflow (stop (create 2 4)) []).2.1
        (by decide) (by decide)⟩,
    ⟨by decide,
      (stopped_abort_spec .block_on_overflow (create 2 4) [7]).2.2.1
        (by decide) (by decide)⟩⟩

/-- C5: a message needing more blocks than the total capacity is rejected
immediately by both `send` and `try_send` with `std::logic_error` — a
usage error, not a blocking condition — regardless of the queue's fill
state or run state, leaving the queue unchanged (no state is produced by
the throwing call). -/
theorem oversized_message_rejected (pol : overflow_policy) (q : SharedRegion)
    (msg : List Nat)
    (h : blocks_needed q.block_size msg.length > q.capacity) :
    send pol q msg = .error .logic_error ∧
      try_send q msg = .error .logic_error := by
  constructor
  · unfold send
    rw [if_pos h]
  · unfold try_send
    rw [if_pos h]

/-- C5 witness: a 5-byte message on an empty queue of 2 blocks of 4
bytes needs 3 blocks and is rejected by both paths. -/
theorem oversized_message_rejected_witness :
    blocks_needed (create 2 4).block_size ([1, 2, 3, 4, 5] : List Nat).length >
        (create 2 4).capacity ∧
      send .block_on_overflow (create 2 4) [1, 2, 3, 4, 5] = .error .logic_error ∧
      try_send (create 2 4) [1, 2, 3, 4, 5] = .error .logic_error :=
  ⟨by decide,
    oversized_message_rejected .block_on_overflow (create 2 4) [1, 2, 3, 4, 5] (by decide)⟩

/-- C6: `try_send` and `try_receive` never wait: when the predicate is
false they return `false` at once with the region unchanged, when it is
true they perform the operation and return `true`, and the run/stop flag
plays no role — running the same call on the same region with the
running flag replaced by any value gives the same result up to that
flag. -/
theorem try_ops_never_wait (q : SharedRegion) (msg : List Nat) (b : Bool) :
    (¬ blocks_needed q.block_size msg.length > q.capacity →
      ¬ send_predicate q msg.length → try_send q msg = .ok (false, q)) ∧
    (¬ blocks_needed q.block_size msg.length > q.capacity →
      send_predicate q msg.length →
      try_send q msg = .ok (true, put_message q msg)) ∧
    (¬ receive_predicate q → try_receive q = (false, none, q)) ∧
    (receive_predicate q →
      try_receive q = (true, some (get_message q).1, (get_message q).2)) ∧
    (try_send { q with running := b } msg =
      match try_send q msg with
      | .error e => .error e
      | .ok r => .ok (r.1, { r.2 with running := b })) ∧
    (try_receive { q with running := b } =
      ((try_receive q).1, (try_receive q).2.1,
        { (try_receive q).2.2 with running := b })) := by
  refine ⟨?_, ?_, ?_, ?_, ?_, ?_⟩
  · intro hfit hpred
    unfold try_send
    rw [if_neg hfit, if_neg hpred]
  · intro hfit hpred
    unfold try_send
    rw [if_neg hfit, if_pos hpred]
  · intro hpred
    unfold try_receive
    rw [if_neg hpred]
  · intro hpred
    unfold try_receive
    rw [if_pos hpred]
  · show try_send { q with running := b } msg = _
    unfold try_send
    by_cases hfit : blocks_needed q.block_size msg.length > q.capacity
    · rw [if_pos hfit, if_pos (show blocks_needed ({ q with running := b } :
        SharedRegion).block_size msg.length > ({ q with running := b } :
        SharedRegion).capacity from hfit)]
    · rw [if_neg hfit, if_neg (show ¬ blocks_needed ({ q with running := b } :
        SharedRegion).block_size msg.length > ({ q with running := b } :
        SharedRegion).capacity from hfit)]
      by_cases hpred : send_predicate q msg.length
      · rw [if_pos hpred, if_pos (show send_predicate { q with running := b }
          msg.length from hpred)]
        rfl
      · rw [if_neg hpred, if_neg (show ¬ send_predicate { q with running := b }
          msg.length from hpred)]
  · unfold try_receive
    by_cases hpred : receive_predicate q
    · rw [if_pos hpred, if_pos (show receive_predicate { q with running := b }
        from hpred)]
      rfl
    · rw [if_neg hpred, if_neg (show ¬ receive_predicate { q with running := b }
        from hpred)]

/-- C6 witness: concrete non-blocking calls on an empty stopped queue
and on a non-empty stopped queue. -/
theorem try_ops_never_wait_witness :
    (¬ blocks_needed (stop (create 2 4)).block_size ([1, 2, 3, 4] : List Nat).length >
        (stop (create 2 4)).capacity ∧
      send_predicate (stop (create 2 4)) ([1, 2, 3, 4] : List Nat).length ∧
      try_send (stop (create 2 4)) [1, 2, 3, 4] =
        .ok (true, put_message (stop (create 2 4)) [1, 2, 3, 4])) ∧
    (¬ receive_predicate (stop (create 2 4)) ∧
      try_receive (stop (create 2 4)) = (false, none, stop (create 2 4))) :=
  ⟨⟨by decide, by decide,
      (try_ops_never_wait (stop (create 2 4)) [1, 2, 3, 4] false).2.1
        (by decide) (by decide)⟩,
    ⟨by decide,
      (try_ops_never_wait (stop (create 2 4)) [1, 2, 3, 4] false).2.2.1 (by decide)⟩⟩

/-- Modelled from the spec: `open_or_create` performs `create`; when the
named queue already exists it attaches to the existing region instead,
adopting its already-fixed parameters and discarding the caller's
requested capacity and block size (the region-manager implementation is
not in the source tree). -/
def open_or_create (existing : Option SharedRegion) (capacity block_size : Nat) :
    SharedRegion :=
  match existing with
  | some r => r
  | none => create capacity block_size

/-- C8: attaching to an already existing queue discards the requested
capacity and block size; the `capacity()` and `block_size()` accessors of
the attaching handle return the values fixed at first creation, for
every pair of requested values. -/
theorem open_or_create_adopts_existing (cap0 bs0 req_cap req_bs : Nat) :
    (open_or_create (some (create cap0 bs0)) req_cap req_bs).capacity = cap0 ∧
    (open_or_create (some (create cap0 bs0)) req_cap req_bs).block_size = bs0 ∧
    (open_or_create none req_cap req_bs).capacity = req_cap ∧
    (open_or_create none req_cap req_bs).block_size = req_bs :=
  ⟨rfl, rfl, rfl, rfl⟩

/-- C9: `clear()` resets `head_index = tail_index = 0` and
`free_block_count = capacity`, discarding all pending messages: right
after `clear()` a `try_receive` fails on the empty queue and a `try_send`
of any fitting message succeeds into the freshly emptied buffer. -/
theorem clear_resets_queue (q : SharedRegion) (msg : List Nat) :
    (clear q).head_index = 0 ∧ (clear q).tail_index = 0 ∧
    (clear q).free_block_count = q.capacity ∧
    try_receive (clear q) = (false, none, clear q) ∧
    (blocks_needed q.block_size msg.length ≤ q.capacity →
      try_send (clear q) msg = .ok (true, put_message (clear q) msg)) := by
  refine ⟨rfl, rfl, rfl, ?_, ?_⟩
  · unfold try_receive
    rw [if_neg (by
      show ¬ receive_predicate (clear q)
      unfold receive_predicate clear
      simp)]
  · intro hfit
    unfold try_send
    rw [if_neg (by
        show ¬ blocks_needed (clear q).block_size msg.length > (clear q).capacity
        exact not_lt.mpr hfit),
      if_pos (by
        show send_predicate (clear q) msg.length
        unfold send_predicate clear
        simpa using hfit)]

/-- C9 witness: clearing a queue holding one message empties it and lets
a fitting message in. -/
theorem clear_resets_queue_witness :
    (clear (put_message (create 2 4) [7])).head_index = 0 ∧
    (clear (put_message (create 2 4) [7])).tail_index = 0 ∧
    (clear (put_message (create 2 4) [7])).free_block_count =
      (put_message (create 2 4) [7]).capacity ∧
    try_receive (clear (put_message (create 2 4) [7])) =
      (false, none, clear (put_message (create 2 4) [7])) ∧
    (blocks_needed (put_message (create 2 4) [7]).block_size
        ([8, 8] : List Nat).length ≤ (put_message (create 2 4) [7]).capacity ∧
      try_send (clear (put_message (create 2 4) [7])) [8, 8] =
        .ok (true, put_message (clear (put_message (create 2 4) [7])) [8, 8])) := by
  have h := clear_resets_queue (put_message (create 2 4) [7]) [8, 8]
  exact ⟨h.1, h.2.1, h.2.2.1, h.2.2.2.1, by decide, h.2.2.2.2 (by decide)⟩

/-! ### Receive sinks: fixed buffer and growable container -/

/-- `fixed_buffer_state` of the header: the caller's buffer (here the
bytes written into it so far) and the remaining free size. -/
structure fixed_buffer_state where
  written : List Nat
  size : Nat
deriving Repr, DecidableEq

/-- Modelled from the spec (the out-of-line `fixed_buffer_receive_handler`
is not in the source tree): copies the delivered bytes into the caller's
fixed buffer, consuming its remaining size; delivering more bytes than
fit is an error condition — the message is never silently truncated. -/
def fixed_buffer_receive_handler (st : fixed_buffer_state) (bytes : List Nat) :
    Option fixed_buffer_state :=
  if bytes.length ≤ st.size then
    some { written := st.written ++ bytes, size := st.size - bytes.length }
  else
    none

/-- Modelled from the spec: the dequeue hands the reconstructed byte span
to the sink, handling the wraparound split transparently — one segment
when the span is contiguous, two when it wraps past the end of the data
area. -/
def msg_segments (q : SharedRegion) : List (List Nat) :=
  let start := q.head_index * q.block_size + header_bytes
  let len := head_size q
  let L := q.data.length
  if start % L + len ≤ L then [readBytes q.data start len]
  else
    [readBytes q.data start (L - start % L),
      readBytes q.data (start + (L - start % L)) (len - (L - start % L))]

/-- Feed the delivered segments to the fixed-buffer handler in order. -/
def deliver : fixed_buffer_state → List (List Nat) → Option fixed_buffer_state
  | st, [] => some st
  | st, seg :: rest =>
    match fixed_buffer_receive_handler st seg with
    | none => none
    | some st1 => deliver st1 rest

/-- `container_receive_handler` of the header: inserts the delivered
bytes at the container's end, leaving the existing elements in place. -/
def container_receive_handler (container : List Nat) (bytes : List Nat) : List Nat :=
  container ++ bytes

/-- Feed the delivered segments to the container handler in order. -/
def deliver_container : List Nat → List (List Nat) → List Nat
  | c, [] => c
  | c, seg :: rest => deliver_container (container_receive_handler c seg) rest

/-- The C++ value types relevant to `aux::enable_if_byte`. -/
inductive cpp_char_type
  | char_t
  | schar_t
  | uchar_t
  | other_t (name : String)
deriving Repr, DecidableEq

/-- `aux::enable_if_byte` of the header: its `type` member (hence the
container receive overloads) exists exactly for the specializations
`char`, `signed char` and `unsigned char`. -/
def enable_if_byte : cpp_char_type → Bool
  | .char_t => true
  | .schar_t => true
  | .uchar_t => true
  | .other_t _ => false

/-- The fixed-buffer blocking `receive` of the header (lines 473-479):
initializes the buffer state, runs the dequeue with the fixed-buffer
handler and reports `message_size = buffer_size - state.size`; `none`
models the exception propagated out of the handler. -/
def receive_buffer (q : SharedRegion) (buffer_size : Nat) :
    Option (op_outcome × List Nat × Nat × SharedRegion) :=
  if receive_predicate q then
    match deliver { written := [], size := buffer_size } (msg_segments q) with
    | none => none
    | some st => some (.succeeded, st.written, buffer_size - st.size, (get_message q).2)
  else if q.running then some (.would_block, [], 0, q)
  else some (.aborted, [], 0, q)

/-- The fixed-buffer `try_receive` of the header (lines 526-532):
initializes the buffer state, runs the dequeue with the fixed-buffer
handler and reports `message_size = buffer_size - state.size`; `none`
models the exception propagated out of the handler. -/
def try_receive_buffer (q : SharedRegion) (buffer_size : Nat) :
    Option (Bool × List Nat × Nat × SharedRegion) :=
  if receive_predicate q then
    match deliver { written := [], size := buffer_size } (msg_segments q) with
    | none => none
    | some st => some (true, st.written, buffer_size - st.size, (get_message q).2)
  else
    some (false, [], 0, q)

/-- The container `receive` of the header (lines 499-508): runs the
dequeue with `container_receive_handler`, appending the message to the
caller's container. -/
def receive_container (q : SharedRegion) (container : List Nat) :
    op_outcome × List Nat × SharedRegion :=
  if receive_predicate q then
    (.succeeded, deliver_container container (msg_segments q), (get_message q).2)
  else if q.running then (.would_block, container, q)
  else (.aborted, container, q)

/-- The container `try_receive` of the header (lines 550-559). -/
def try_receive_container (q : SharedRegion) (container : List Nat) :
    Bool × List Nat × SharedRegion :=
  if receive_predicate q then
    (true, deliver_container container (msg_segments q), (get_message q).2)
  else (false, container, q)

theorem msg_segments_flatten (q : SharedRegion) :
    (msg_segments q).flatten = (get_message q).1 := by
  unfold msg_segments
  rw [get_message_msg]
  by_cases h : (q.head_index * q.block_size + header_bytes) % q.data.length +
      head_size q ≤ q.data.length
  · rw [if_pos h]
    simp
  · rw [if_neg h]
    simp only [List.flatten_cons, List.flatten_nil, List.append_nil]
    rw [← readBytes_add q.data (q.head_index * q.block_size + header_bytes)
      (q.data.length - (q.head_index * q.block_size + header_bytes) % q.data.length)
      (head_size q - (q.data.length -
        (q.head_index * q.block_size + header_bytes) % q.data.length))]
    rw [show q.data.length - (q.head_index * q.block_size + header_bytes) % q.data.length
        + (head_size q - (q.data.length -
          (q.head_index * q.block_size + header_bytes) % q.data.length))
        = head_size q from by
      generalize (q.head_index * q.block_size + header_bytes) % q.data.length = r at h
      omega]

theorem handler_fits (st : fixed_buffer_state) (seg : List Nat)
    (h : seg.length ≤ st.size) :
    fixed_buffer_receive_handler st seg =
      some ⟨st.written ++ seg, st.size - seg.length⟩ := by
  unfold fixed_buffer_receive_handler
  rw [if_pos h]

theorem handler_overflows (st : fixed_buffer_state) (seg : List Nat)
    (h : ¬ seg.length ≤ st.size) :
    fixed_buffer_receive_handler st seg = none := by
  unfold fixed_buffer_receive_handler
  rw [if_neg h]

theorem deliver_cons_some (st st1 : fixed_buffer_state) (seg : List Nat)
    (rest : List (List Nat)) (h : fixed_buffer_receive_handler st seg = some st1) :
    deliver st (seg :: rest) = deliver st1 rest := by
  simp only [deliver, h]

theorem deliver_cons_none (st : fixed_buffer_state) (seg : List Nat)
    (rest : List (List Nat)) (h : fixed_buffer_receive_handler st seg = none) :
    deliver st (seg :: rest) = none := by
  simp only [deliver, h]

theorem deliver_fits (segs : List (List Nat)) :
    ∀ st : fixed_buffer_state, segs.flatten.length ≤ st.size →
      deliver st segs =
        some ⟨st.written ++ segs.flatten, st.size - segs.flatten.length⟩ := by
  induction segs with
  | nil =>
    intro st hst
    simp [deliver]
  | cons seg rest ih =>
    intro st hst
    have hflat : (seg :: rest).flatten.length = seg.length + rest.flatten.length := by
      simp
    rw [hflat] at hst
    rw [deliver_cons_some st ⟨st.written ++ seg, st.size - seg.length⟩ seg rest
      (handler_fits st seg (by omega))]
    rw [ih ⟨st.written ++ seg, st.size - seg.length⟩ (by
      show rest.flatten.length ≤ st.size - seg.length
      omega)]
    have hw : st.written ++ seg ++ rest.flatten = st.written ++ (seg :: rest).flatten := by
      simp
    have hs : st.size - seg.length - rest.flatten.length =
        st.size - (seg :: rest).flatten.length := by
      rw [hflat]
      omega
    rw [show (⟨st.written ++ seg, st.size - seg.length⟩ :
        fixed_buffer_state).written = st.written ++ seg from rfl,
      show (⟨st.written ++ seg, st.size - seg.length⟩ :
        fixed_buffer_state).size = st.size - seg.length from rfl, hw, hs]

theorem deliver_overflow (segs : List (List Nat)) :
    ∀ st : fixed_buffer_state, st.size < segs.flatten.length →
      deliver st segs = none := by
  induction segs with
  | nil =>
    intro st hst
    simp at hst
  | cons seg rest ih =>
    intro st hst
    have hflat : (seg :: rest).flatten.length = seg.length + rest.flatten.length := by
      simp
    rw [hflat] at hst
    by_cases hfit : seg.length ≤ st.size
    · rw [deliver_cons_some st ⟨st.written ++ seg, st.size - seg.length⟩ seg rest
        (handler_fits st seg hfit)]
      exact ih ⟨st.written ++ seg, st.size - seg.length⟩ (by
        show st.size - seg.length < rest.flatten.length
        omega)
    · exact deliver_cons_none st seg rest (handler_overflows st seg hfit)

theorem deliver_container_flatten (segs : List (List Nat)) :
    ∀ c : List Nat, deliver_container c segs = c ++ segs.flatten := by
  induction segs with
  | nil =>
    intro c
    simp [deliver_container]
  | cons seg rest ih =>
    intro c
    unfold deliver_container container_receive_handler
    rw [ih (c ++ seg)]
    simp

/-- C7: on every successful fixed-buffer `receive` or `try_receive` the
`message_size` output (`buffer_size - state.size`) equals the actual byte
size of the dequeued message, and a message larger than the caller's
fixed buffer is an error condition — never a silent truncation. -/
theorem fixed_buffer_reports_actual_size (cap bs buffer_size : Nat)
    (q : SharedRegion) (m : List Nat) (rest : List (List Nat))
    (inv : Inv cap bs q (m :: rest)) :
    (m.length ≤ buffer_size →
      receive_buffer q buffer_size =
          some (.succeeded, m, m.length, (get_message q).2) ∧
        try_receive_buffer q buffer_size =
          some (true, m, m.length, (get_message q).2)) ∧
    (buffer_size < m.length →
      receive_buffer q buffer_size = none ∧
        try_receive_buffer q buffer_size = none) := by
  obtain ⟨hhs, hm, hinv2⟩ := get_message_spec cap bs q m rest inv
  have hrp : receive_predicate q :=
    (receive_predicate_iff_nonempty cap bs q (m :: rest) inv).mpr
      (List.cons_ne_nil m rest)
  have hflat : (msg_segments q).flatten = m := by
    rw [msg_segments_flatten, hm]
  constructor
  · intro hfits
    have hd := deliver_fits (msg_segments q) ⟨[], buffer_size⟩ (by
      show (msg_segments q).flatten.length ≤ buffer_size
      rw [hflat]
      exact hfits)
    have harith : buffer_size - (buffer_size - m.length) = m.length := by omega
    constructor
    · unfold receive_buffer
      rw [if_pos hrp]
      simp only [hd, hflat]
      rw [List.nil_append, harith]
    · unfold try_receive_buffer
      rw [if_pos hrp]
      simp only [hd, hflat]
      rw [List.nil_append, harith]
  · intro hover
    have hd := deliver_overflow (msg_segments q) ⟨[], buffer_size⟩ (by
      show buffer_size < (msg_segments q).flatten.length
      rw [hflat]
      exact hover)
    constructor
    · unfold receive_buffer
      rw [if_pos hrp]
      simp only [hd]
    · unfold try_receive_buffer
      rw [if_pos hrp]
      simp only [hd]

/-- C7 witness: a 2-byte message delivered into an 8-byte buffer reports
size 2; the same message into a 1-byte buffer is an error. -/
theorem fixed_buffer_reports_actual_size_witness :
    (([5, 6] : List Nat).length ≤ 8 ∧
      receive_buffer (put_message (create 2 4) [5, 6]) 8 =
          some (.succeeded, [5, 6], 2, (get_message (put_message (create 2 4) [5, 6])).2) ∧
        try_receive_buffer (put_message (create 2 4) [5, 6]) 8 =
          some (true, [5, 6], 2, (get_message (put_message (create 2 4) [5, 6])).2)) ∧
    (1 < ([5, 6] : List Nat).length ∧
      receive_buffer (put_message (create 2 4) [5, 6]) 1 = none ∧
        try_receive_buffer (put_message (create 2 4) [5, 6]) 1 = none) := by
  have inv : Inv 2 4 (put_message (create 2 4) [5, 6]) [[5, 6]] := by
    have h := Inv_put 2 4 (create 2 4) [] [5, 6]
      (Inv_create 2 4 (by decide) (by decide)) (by decide) (by decide)
    simpa using h
  exact ⟨⟨by decide,
      (fixed_buffer_reports_actual_size 2 4 8 _ [5, 6] [] inv).1 (by decide)⟩,
    ⟨by decide,
      (fixed_buffer_reports_actual_size 2 4 1 _ [5, 6] [] inv).2 (by decide)⟩⟩

/-- C10: the container variants of `receive` and `try_receive` append
the received message at the end of the caller's container, preserving the
elements already there, and the overloads exist exactly for containers
whose value type is `char`, `signed char` or `unsigned char`. -/
theorem container_receive_appends (cap bs : Nat) (q : SharedRegion)
    (container m : List Nat) (rest : List (List Nat)) (t : cpp_char_type)
    (inv : Inv cap bs q (m :: rest)) :
    receive_container q container = (.succeeded, container ++ m, (get_message q).2) ∧
    try_receive_container q container = (true, container ++ m, (get_message q).2) ∧
    (enable_if_byte t = true ↔
      t = .char_t ∨ t = .schar_t ∨ t = .uchar_t) := by
  obtain ⟨hhs, hm, hinv2⟩ := get_message_spec cap bs q m rest inv
  have hrp : receive_predicate q :=
    (receive_predicate_iff_nonempty cap bs q (m :: rest) inv).mpr
      (List.cons_ne_nil m rest)
  have hflat : deliver_container container (msg_segments q) = container ++ m := by
    rw [deliver_container_flatten, msg_segments_flatten, hm]
  refine ⟨?_, ?_, ?_⟩
  · unfold receive_container
    rw [if_pos hrp, hflat]
  · unfold try_receive_container
    rw [if_pos hrp, hflat]
  · cases t <;> simp [enable_if_byte]

/-- C10 witness: receiving a 2-byte message into a container already
holding one byte yields the old contents with the message appended; the
overload gate holds at each of the four value types. -/
theorem container_receive_appends_witness :
    (receive_container (put_message (create 2 4) [5, 6]) [9] =
        (.succeeded, [9, 5, 6], (get_message (put_message (create 2 4) [5, 6])).2) ∧
      try_receive_container (put_message (create 2 4) [5, 6]) [9] =
        (true, [9, 5, 6], (get_message (put_message (create 2 4) [5, 6])).2)) ∧
    (enable_if_byte .uchar_t = true ↔
      cpp_char_type.uchar_t = .char_t ∨ cpp_char_type.uchar_t = .schar_t ∨
        cpp_char_type.uchar_t = .uchar_t) := by
  have inv : Inv 2 4 (put_message (create 2 4) [5, 6]) [[5, 6]] := by
    have h := Inv_put 2 4 (create 2 4) [] [5, 6]
      (Inv_create 2 4 (by decide) (by decide)) (by decide) (by decide)
    simpa using h
  have h := container_receive_appends 2 4 (put_message (create 2 4) [5, 6])
    [9] [5, 6] [] .uchar_t inv
  exact ⟨⟨h.1, h.2.1⟩, h.2.2⟩

end ReliableMQ
